import Mathlib

/-!
# Verification of the Taidi tracker settlement engine

Shallow embedding of the core logic of the repository:

* `compute_payouts` and class `CardGameTracker` from `src/tracker.py`
  (the payout calculator and the round ledger);
* `save_game_snapshot` / `restore_tracker_from_snapshot` from `src/models.py`
  (serialization of the ledger state).

Modelling conventions:

* Python `float` money amounts become `ℚ` (the claims are stated for exact
  arithmetic); card counts become `ℤ` (Python ints, so negative values are
  representable).
* A Python `dict` becomes an association list whose keys are unique; the
  payout dict built by the accumulation loops of `compute_payouts` is
  represented by its final value: for each player, incoming payments minus
  outgoing payments, summed over the other players, mirroring the two loop
  nests of the source line by line.
* The pandas DataFrame `history` (index = players, columns `R1`, `R2`, ...)
  becomes a list of labelled columns `List (ℕ × List (String × ℚ))`; the
  column label `R{k}` is represented by the number `k` itself, and each
  column is an association list from player name to payout (the DataFrame
  cell at row `p`, column `Rk`).  `dict.get(p, 0.0)` becomes `lookupD m p`.
* `datetime.now()` is an input from the environment, so `add_round` takes the
  timestamp string as an explicit argument.
* The Python method `add_round` has no `return` statement, hence returns
  `None`; the embedding returns `Option ℕ` and always yields `none`.
-/

namespace Taidi

/-- `dict.get(p, 0.0)`: first value bound to key `p`, defaulting to `0`. -/
def lookupD (m : List (String × ℚ)) (p : String) : ℚ :=
  (List.lookup p m).getD 0

/-! ## Payout calculator (`src/tracker.py`, `compute_payouts`, lines 7-86) -/

/-- Multiplier thresholds chosen from the number of players
(`tracker.py` lines 34-43): 4 players use (10, 13), 3 players use (12, 15),
any other count falls back to the 4-player thresholds. -/
def thresholds (numPlayers : ℕ) : ℤ × ℤ :=
  if numPlayers = 4 then (10, 13)
  else if numPlayers = 3 then (12, 15)
  else (10, 13)

/-- Per-payer multiplier (`tracker.py` lines 51-56): 3 at or above the triple
threshold, else 2 at or above the double threshold, else 1. -/
def multiplier (numPlayers : ℕ) (cards : ℤ) : ℤ :=
  if (thresholds numPlayers).2 ≤ cards then 3
  else if (thresholds numPlayers).1 ≤ cards then 2
  else 1

/-- Step 1 pairwise payment (`tracker.py` lines 59-71): the amount `payer`
pays `receiver` in the card-difference layer.  The `payer.1 ≠ receiver.1`
conjunct is the `i == j: continue` skip (dict keys are unique, so index
equality is name equality); the payment happens only when the payer holds
strictly more cards. -/
def pairPayment (numPlayers : ℕ) (v : ℚ) (payer receiver : String × ℤ) : ℚ :=
  if payer.1 ≠ receiver.1 ∧ receiver.2 < payer.2 then
    ((payer.2 - receiver.2 : ℤ) : ℚ) * v * ((multiplier numPlayers payer.2 : ℤ) : ℚ)
  else 0

/-- Step 2 winner-bonus payment (`tracker.py` lines 73-84): the amount `payer`
pays `receiver` in the winner-bonus layer: `2 * card_value` whenever
`receiver` holds 0 cards and is not `payer`. -/
def bonusPayment (v : ℚ) (payer receiver : String × ℤ) : ℚ :=
  if receiver.2 = 0 ∧ payer.1 ≠ receiver.1 then 2 * v else 0

/-- Net effect on player `p` of the step 1 loop nest (incoming minus outgoing
pairwise payments over all other players). -/
def step1Delta (cc : List (String × ℤ)) (v : ℚ) (p : String × ℤ) : ℚ :=
  (cc.map (fun q => pairPayment cc.length v q p - pairPayment cc.length v p q)).sum

/-- Net effect on player `p` of the step 2 winner-bonus loop nest. -/
def winnerDelta (cc : List (String × ℤ)) (v : ℚ) (p : String × ℤ) : ℚ :=
  (cc.map (fun q => bonusPayment v q p - bonusPayment v p q)).sum

/-- `compute_payouts(card_counts, card_value)` (`tracker.py` lines 7-86).
The result maps every player of `card_counts` to the accumulated net payout
of the two layers.  An empty `card_counts` yields the empty mapping
(lines 27-28).  The source performs no input validation: any integer card
counts are settled by the same rules. -/
def compute_payouts (cc : List (String × ℤ)) (v : ℚ) : List (String × ℚ) :=
  cc.map (fun p => (p.1, step1Delta cc v p + winnerDelta cc v p))

/-! ## Round ledger (`src/tracker.py`, class `CardGameTracker`, lines 89-183) -/

/-- One entry of `tx_log` (`tracker.py` lines 112-118). -/
structure Tx where
  round : ℕ
  timestamp : String
  card_counts : List (String × ℤ)
  card_value : ℚ
  payouts : List (String × ℚ)
deriving DecidableEq, Repr

/-- The ledger state: `players`, `balances`, the per-round payout table
`history` (list of labelled columns; label `k` stands for the pandas column
name `R{k}`), and `tx_log`. -/
structure CardGameTracker where
  players : List String
  balances : List (String × ℚ)
  history : List (ℕ × List (String × ℚ))
  tx_log : List Tx
deriving DecidableEq, Repr

/-- Python dict assignment `m[p] = x`: overwrite the value of an existing key
in place, else append the new key at the end (insertion order). -/
def dictInsert (p : String) (x : ℚ) : List (String × ℚ) → List (String × ℚ)
  | [] => [(p, x)]
  | (q, a) :: m => if q = p then (q, x) :: m else (q, a) :: dictInsert p x m

/-- Python `m[p] += x` on a dict: add `x` to the value of the (unique)
matching key, touching nothing else.  (On a missing key Python raises
`KeyError`; that never happens in the tracker, whose balance keys are the
set of `self.players`, and the model leaves the dict unchanged there.) -/
def addToKey (p : String) (x : ℚ) : List (String × ℚ) → List (String × ℚ)
  | [] => []
  | (q, a) :: m => if q = p then (q, a + x) :: m else (q, a) :: addToKey p x m

/-- Python `m[p] -= x` on a dict, same conventions as `addToKey`. -/
def subFromKey (p : String) (x : ℚ) : List (String × ℚ) → List (String × ℚ)
  | [] => []
  | (q, a) :: m => if q = p then (q, a - x) :: m else (q, a) :: subFromKey p x m

/-- `CardGameTracker.__init__` (lines 92-96): `{p: 0.0 for p in players}` (a
dict comprehension: one zero entry per distinct player, first-occurrence
order), empty history (a DataFrame with index `players` and no columns),
empty log. -/
def mkTracker (players : List String) : CardGameTracker :=
  { players := players
    balances := players.foldl (fun m p => dictInsert p 0 m) []
    history := []
    tx_log := [] }

/-- Assigning `pd.Series(payouts)` as a new column of a DataFrame whose index
is `players` aligns the series on that index: the cell at row `p` takes the
value bound to `p` in `payouts`.  (The claims hypothesise that the keys of
`card_counts` are exactly the player set, so no cell is missing.) -/
def alignToPlayers (players : List String) (m : List (String × ℚ)) : List (String × ℚ) :=
  players.map (fun p => (p, lookupD m p))

/-- Python `list.pop(i)` / dropping position `i`: the list without its `i`-th
element. -/
def popAt (l : List α) (i : ℕ) : List α :=
  l.take i ++ l.drop (i + 1)

/-- `remove_round`'s column renaming (lines 159-163): relabel the columns
sequentially, the first one getting label `s`. -/
def renumberFrom (s : ℕ) : List (ℕ × α) → List (ℕ × α)
  | [] => []
  | c :: cs => (s, c.2) :: renumberFrom (s + 1) cs

/-- `remove_round`'s log renumbering loop (lines 169-170): starting at
position `i` (0-based), overwrite each entry's `round` with `position + 1`. -/
def retagFrom (i : ℕ) : List Tx → List Tx
  | [] => []
  | t :: ts => { t with round := i + 1 } :: retagFrom (i + 1) ts

/-- `add_round(card_counts, card_value)` (lines 98-119).  The loop
`for player in self.players: balances[player] += payouts.get(player, 0.0)`
is a left fold of in-place dict increments over `self.players` (one bump per
list occurrence); then the aligned payout column labelled `R{n+1}` and the
transaction record are appended.  The Python method has no `return`
statement: the returned value is `None`, embedded as `none`. -/
def CardGameTracker.add_round (t : CardGameTracker) (cc : List (String × ℤ)) (v : ℚ)
    (now : String) : CardGameTracker × Option ℕ :=
  let payouts := compute_payouts cc v
  let roundNum := t.history.length + 1
  ({ t with
      balances := t.players.foldl (fun m p => addToKey p (lookupD payouts p) m) t.balances
      history := t.history ++ [(roundNum, alignToPlayers t.players payouts)]
      tx_log := t.tx_log ++ [{ round := roundNum, timestamp := now, card_counts := cc,
                               card_value := v, payouts := payouts }] },
   none)

/-- `undo_last_round()` (lines 121-137): no-op returning `false` on an empty
history; otherwise the loop
`for player in self.players: balances[player] -= last_payouts.get(player, 0.0)`
(a left fold of in-place dict decrements) subtracts the last stored column,
that column is dropped, the last log entry is popped if the log is
non-empty, and `true` is returned. -/
def CardGameTracker.undo_last_round (t : CardGameTracker) : CardGameTracker × Bool :=
  if t.history.length = 0 then (t, false)
  else
    let lastCol := t.history.getLast?.getD (0, [])
    ({ t with
        balances := t.players.foldl (fun m p => subFromKey p (lookupD lastCol.2 p) m) t.balances
        history := t.history.dropLast
        tx_log := if t.tx_log.isEmpty then t.tx_log else t.tx_log.dropLast },
     true)

/-- `remove_round(round_number)` (lines 139-172).  Guard: out-of-range round
numbers return `false` (line 141); a missing column label also returns
`false` (line 146).  Otherwise: subtract the labelled column (pandas label
lookup finds the matching column) from the balances, drop every column with
that label (`drop(columns=[col_name])`), relabel the remaining columns
sequentially, and when the log is non-empty and long enough, pop entry
`round_number - 1` and renumber the entries from that position on.  The
balance subtraction loop over `self.players` is the same fold of in-place
dict decrements as in `undo_last_round`. -/
def CardGameTracker.remove_round (t : CardGameTracker) (k : ℕ) : CardGameTracker × Bool :=
  if k < 1 ∨ t.history.length < k then (t, false)
  else if ¬ (t.history.map Prod.fst).contains k then (t, false)
  else
    let col := (t.history.find? (fun c => c.1 == k)).getD (0, [])
    let newTx :=
      if t.tx_log ≠ [] ∧ k ≤ t.tx_log.length then
        let e := popAt t.tx_log (k - 1)
        e.take (k - 1) ++ retagFrom (k - 1) (e.drop (k - 1))
      else t.tx_log
    ({ t with
        balances := t.players.foldl (fun m p => subFromKey p (lookupD col.2 p) m) t.balances
        history := renumberFrom 1 (t.history.filter (fun c => c.1 != k))
        tx_log := newTx },
     true)

/-- The three mutating ledger operations, for quantifying over operation
sequences (the timestamp of an `add` is part of the operation, being an
environment input). -/
inductive Op where
  | add (cc : List (String × ℤ)) (v : ℚ) (now : String)
  | undo
  | remove (k : ℕ)

/-- Apply one operation to a tracker (return values discarded). -/
def exec (t : CardGameTracker) : Op → CardGameTracker
  | Op.add cc v now => (t.add_round cc v now).1
  | Op.undo => t.undo_last_round.1
  | Op.remove k => (t.remove_round k).1

/-- Apply a sequence of operations in order. -/
def execs (t : CardGameTracker) (ops : List Op) : CardGameTracker :=
  ops.foldl exec t

/-! ## Snapshots (`src/models.py`, lines 272-307) -/

/-- The snapshot dict built by `save_game_snapshot` (`models.py` lines
274-281).  `history` is stored in pandas `split` orientation: the row index,
the column labels, and the cell data row by row. -/
structure Snapshot where
  players : List String
  balances : List (String × ℚ)
  hist_index : List String
  hist_columns : List ℕ
  hist_data : List (List ℚ)
  round_num : ℕ
  card_value : ℚ
  tx_log : List Tx
deriving DecidableEq, Repr

/-- `save_game_snapshot` (`models.py` lines 272-282), minus the database
write, which is an external collaborator.  `history.to_dict(orient="split")`
produces the DataFrame's index (the player list, fixed at construction), its
column labels, and one data row per index entry holding that player's cell in
each column. -/
def save_game_snapshot (t : CardGameTracker) (round_num : ℕ) (card_value : ℚ) : Snapshot :=
  { players := t.players
    balances := t.balances
    hist_index := t.players
    hist_columns := t.history.map Prod.fst
    hist_data := t.players.map (fun p => t.history.map (fun c => lookupD c.2 p))
    round_num := round_num
    card_value := card_value
    tx_log := t.tx_log }

/-- `pd.DataFrame(data=rows, index, columns)`: rebuild the labelled columns
from split orientation.  Column `j` pairs each index entry with the `j`-th
cell of its data row; the recursion peels the first cell of every row for the
first column and recurses on the rest. -/
def dfFromSplit (index : List String) : List ℕ → List (List ℚ) → List (ℕ × List (String × ℚ))
  | [], _ => []
  | c :: cs, data =>
      (c, index.zip (data.map (fun row => row.headD 0))) ::
        dfFromSplit index cs (data.map (fun row => row.drop 1))

/-- `restore_tracker_from_snapshot` (`models.py` lines 290-307): rebuild a
tracker from the snapshot fields and return it together with the stored
`round_num` and `card_value`. -/
def restore_tracker_from_snapshot (s : Snapshot) : CardGameTracker × ℕ × ℚ :=
  ({ players := s.players
     balances := s.balances
     history := dfFromSplit s.hist_index s.hist_columns s.hist_data
     tx_log := s.tx_log },
   s.round_num, s.card_value)

/-! ## Derived notions used by the claims -/

/-- The payout recorded for player `p` in one stored history column. -/
def colEntry (p : String) (c : ℕ × List (String × ℚ)) : ℚ :=
  lookupD c.2 p

/-- Sum over all rounds currently in a history of the round's payout entry
for player `p` (the right-hand side of the balance-consistency invariant). -/
def histSumOf (hist : List (ℕ × List (String × ℚ))) (p : String) : ℚ :=
  (hist.map (colEntry p)).sum

/-- The contiguous label list `s+1, s+2, ..., s+n`. -/
def natRangeFrom (s : ℕ) : ℕ → List ℕ
  | 0 => []
  | n + 1 => (s + 1) :: natRangeFrom (s + 1) n

/-- The tracker state reached from a fresh `CardGameTracker(players)` by a
sequence of operations. -/
def reach (players : List String) (ops : List Op) : CardGameTracker :=
  execs (mkTracker players) ops

/-- The hypothesis of claim C2 on an operation sequence: every `add_round` is
called with card counts whose keys are exactly the tracker's player set. -/
def ValidAdds (players : List String) (ops : List Op) : Prop :=
  ∀ op ∈ ops, match op with
    | Op.add cc _ _ =>
        (cc.map Prod.fst).Nodup ∧ ∀ p, p ∈ cc.map Prod.fst ↔ p ∈ players
    | _ => True

/-! ## General list-sum lemmas -/

theorem sum_map_add (l : List α) (f g : α → ℚ) :
    (l.map (fun x => f x + g x)).sum = (l.map f).sum + (l.map g).sum := by
  induction l with
  | nil => simp
  | cons a t ih => simp only [List.map_cons, List.sum_cons, ih]; ring

/-- A double sum of an antisymmetric function over the same list vanishes. -/
theorem sum_antisymm (l : List α) (h : α → α → ℚ) (hanti : ∀ a b, h a b = - h b a) :
    (l.map (fun p => (l.map (fun q => h p q)).sum)).sum = 0 := by
  induction l with
  | nil => simp
  | cons a t ih =>
    have haa : h a a = 0 := by have := hanti a a; linarith
    simp only [List.map_cons, List.sum_cons, haa, zero_add]
    rw [sum_map_add t (fun p => h p a) (fun p => (t.map (fun q => h p q)).sum), ih]
    have hpair : (t.map (fun q => h a q)).sum + (t.map (fun p => h p a)).sum = 0 := by
      rw [← sum_map_add t (fun q => h a q) (fun q => h q a)]
      refine List.sum_eq_zero (fun x hx => ?_)
      rcases List.mem_map.1 hx with ⟨q, _, rfl⟩
      have := hanti a q
      linarith
    linarith

theorem sum_map_ite_count (l : List α) (P : α → Bool) (c : ℚ) :
    (l.map (fun q => if P q then c else 0)).sum = c * (l.countP P : ℚ) := by
  induction l with
  | nil => simp
  | cons a t ih =>
    by_cases h : P a <;>
      simp only [List.map_cons, List.sum_cons, List.countP_cons, h, if_true, if_false,
        Bool.false_eq_true, ih] <;> push_cast <;> ring

/-- In a list with duplicate-free keys, an entry is determined by its key. -/
theorem eq_of_mem_of_fst_eq {β : Type} (l : List (α × β))
    (hnd : (l.map Prod.fst).Nodup) {q r : α × β} (hq : q ∈ l) (hr : r ∈ l)
    (h : q.1 = r.1) : q = r := by
  induction l with
  | nil => cases hq
  | cons a t ih =>
    simp only [List.map_cons, List.nodup_cons] at hnd
    rcases List.mem_cons.1 hq with rfl | hq2
    · rcases List.mem_cons.1 hr with rfl | hr2
      · rfl
      · exact absurd (h ▸ List.mem_map_of_mem Prod.fst hr2) hnd.1
    · rcases List.mem_cons.1 hr with rfl | hr2
      · exact absurd (h ▸ List.mem_map_of_mem Prod.fst hq2) hnd.1
      · exact ih hnd.2 hq2 hr2

/-! ## Lookup and alignment lemmas -/

theorem lookupD_nil (p : String) : lookupD [] p = 0 := rfl

theorem lookupD_cons_eq (q : String) (a : ℚ) (m : List (String × ℚ)) :
    lookupD ((q, a) :: m) q = a := by
  simp [lookupD, List.lookup]

theorem lookupD_cons_ne (p q : String) (a : ℚ) (m : List (String × ℚ)) (h : p ≠ q) :
    lookupD ((q, a) :: m) p = lookupD m p := by
  simp [lookupD, List.lookup, beq_false_of_ne h]

theorem lookupD_map_of_mem (players : List String) (f : String → ℚ) (p : String)
    (hp : p ∈ players) :
    lookupD (players.map (fun q => (q, f q))) p = f p := by
  induction players with
  | nil => cases hp
  | cons a t ih =>
    by_cases hpa : p = a
    · subst hpa; exact lookupD_cons_eq p (f p) _
    · rw [List.map_cons, lookupD_cons_ne p a (f a) _ hpa]
      exact ih (List.mem_of_ne_of_mem hpa hp)

theorem lookupD_map_of_not_mem (players : List String) (f : String → ℚ) (p : String)
    (hp : p ∉ players) :
    lookupD (players.map (fun q => (q, f q))) p = 0 := by
  induction players with
  | nil => rfl
  | cons a t ih =>
    rw [List.map_cons, lookupD_cons_ne p a (f a) _ (fun h => hp (h ▸ List.mem_cons_self a t))]
    exact ih (fun h => hp (List.mem_cons_of_mem a h))

theorem lookupD_alignToPlayers (players : List String) (m : List (String × ℚ)) (p : String)
    (hp : p ∈ players) :
    lookupD (alignToPlayers players m) p = lookupD m p :=
  lookupD_map_of_mem players (lookupD m) p hp

theorem lookupD_alignToPlayers_not_mem (players : List String) (m : List (String × ℚ))
    (p : String) (hp : p ∉ players) :
    lookupD (alignToPlayers players m) p = 0 :=
  lookupD_map_of_not_mem players (lookupD m) p hp

/-- Rebuilding an association list by looking up each of its own keys is the
identity, provided the keys are duplicate-free. -/
theorem alignToPlayers_self (m : List (String × ℚ)) (players : List String)
    (hkeys : m.map Prod.fst = players) (hnd : players.Nodup) :
    alignToPlayers players m = m := by
  induction m generalizing players with
  | nil => subst hkeys; rfl
  | cons c m ih =>
    subst hkeys
    simp only [List.map_cons, List.nodup_cons] at hnd
    have hhd : lookupD (c :: m) c.1 = c.2 := by
      rw [show (c :: m) = ((c.1, c.2) :: m) from by rw [Prod.mk.eta]]
      exact lookupD_cons_eq c.1 c.2 m
    have htl : ∀ p ∈ m.map Prod.fst, lookupD (c :: m) p = lookupD m p := by
      intro p hp
      have hne : p ≠ c.1 := fun h => hnd.1 (h ▸ hp)
      rw [show (c :: m) = ((c.1, c.2) :: m) from by rw [Prod.mk.eta]]
      exact lookupD_cons_ne p c.1 c.2 m hne
    simp only [alignToPlayers, List.map_cons]
    rw [hhd, Prod.mk.eta]
    congr 1
    have hcongr : (m.map Prod.fst).map (fun p => (p, lookupD (c :: m) p))
        = (m.map Prod.fst).map (fun p => (p, lookupD m p)) :=
      List.map_congr_left (fun p hp => by rw [htl p hp])
    rw [hcongr]
    have h2 := ih (m.map Prod.fst) rfl hnd.2
    rw [alignToPlayers] at h2
    exact h2

/-! ## Contiguous label lists -/

theorem length_natRangeFrom (s n : ℕ) : (natRangeFrom s n).length = n := by
  induction n generalizing s with
  | zero => rfl
  | succ n ih => simp [natRangeFrom, ih]

theorem natRangeFrom_succ_concat (s n : ℕ) :
    natRangeFrom s (n + 1) = natRangeFrom s n ++ [s + n + 1] := by
  induction n generalizing s with
  | zero => rfl
  | succ n ih =>
    rw [show natRangeFrom s (n + 1 + 1) = (s + 1) :: natRangeFrom (s + 1) (n + 1) from rfl,
      show natRangeFrom s (n + 1) = (s + 1) :: natRangeFrom (s + 1) n from rfl,
      ih (s + 1)]
    simp only [List.cons_append, List.cons.injEq, true_and, List.append_cancel_left_eq,
      List.cons.injEq, and_true]
    omega

theorem mem_natRangeFrom (s n x : ℕ) (hx : x ∈ natRangeFrom s n) :
    s + 1 ≤ x ∧ x ≤ s + n := by
  induction n generalizing s with
  | zero => cases hx
  | succ n ih =>
    rcases List.mem_cons.1 hx with rfl | hx2
    · omega
    · have := ih (s + 1) hx2
      omega

theorem get_natRangeFrom (s n i : ℕ) (h : i < (natRangeFrom s n).length) :
    (natRangeFrom s n).get ⟨i, h⟩ = s + i + 1 := by
  induction n generalizing s i with
  | zero => rw [length_natRangeFrom] at h; omega
  | succ n ih =>
    match i with
    | 0 => rfl
    | i + 1 =>
      have h2 : i + 1 < ((s + 1) :: natRangeFrom (s + 1) n).length := h
      have hg : ((s + 1) :: natRangeFrom (s + 1) n).get ⟨i + 1, h2⟩ = s + (i + 1) + 1 := by
        rw [List.get_cons_succ, ih (s + 1) i]
        omega
      exact hg

/-! ## popAt, renumberFrom, retagFrom -/

theorem popAt_cons_zero (a : α) (l : List α) : popAt (a :: l) 0 = l := by
  simp [popAt]

theorem popAt_cons_succ (a : α) (l : List α) (i : ℕ) :
    popAt (a :: l) (i + 1) = a :: popAt l i := by
  simp [popAt]

theorem length_popAt (l : List α) (i : ℕ) (h : i < l.length) :
    (popAt l i).length = l.length - 1 := by
  simp only [popAt, List.length_append, List.length_take, List.length_drop]
  omega

theorem map_popAt (f : α → β) (l : List α) (i : ℕ) :
    (popAt l i).map f = popAt (l.map f) i := by
  simp [popAt, List.map_take, List.map_drop]

theorem sum_map_popAt (l : List α) (f : α → ℚ) (i : ℕ) (h : i < l.length) :
    ((popAt l i).map f).sum = (l.map f).sum - f (l.get ⟨i, h⟩) := by
  induction l generalizing i with
  | nil => cases h
  | cons a t ih =>
    match i with
    | 0 => rw [popAt_cons_zero]; simp
    | i + 1 =>
      rw [popAt_cons_succ, List.map_cons, List.sum_cons,
        ih i (by simpa using Nat.lt_of_succ_lt_succ h), List.get_cons_succ]
      simp only [List.map_cons, List.sum_cons]
      ring

theorem popAt_last (l : List α) (h : l ≠ []) : popAt l (l.length - 1) = l.dropLast := by
  rw [popAt, List.dropLast_eq_take]
  have : l.length - 1 + 1 = l.length := by
    cases l with
    | nil => exact absurd rfl h
    | cons a t => simp
  rw [this, List.drop_length, List.append_nil]

theorem length_renumberFrom (s : ℕ) (l : List (ℕ × α)) :
    (renumberFrom s l).length = l.length := by
  induction l generalizing s with
  | nil => rfl
  | cons c cs ih => simp [renumberFrom, ih]

theorem map_snd_renumberFrom (s : ℕ) (l : List (ℕ × α)) :
    (renumberFrom s l).map Prod.snd = l.map Prod.snd := by
  induction l generalizing s with
  | nil => rfl
  | cons c cs ih => simp [renumberFrom, ih]

theorem map_fst_renumberFrom (s : ℕ) (l : List (ℕ × α)) :
    (renumberFrom (s + 1) l).map Prod.fst = natRangeFrom s l.length := by
  induction l generalizing s with
  | nil => rfl
  | cons c cs ih => simp [renumberFrom, natRangeFrom, ih]

theorem renumberFrom_eq_self (s : ℕ) (l : List (ℕ × α))
    (hmap : l.map Prod.fst = natRangeFrom s l.length) :
    renumberFrom (s + 1) l = l := by
  induction l generalizing s with
  | nil => rfl
  | cons c cs ih =>
    simp only [List.map_cons, List.length_cons, natRangeFrom, List.cons.injEq] at hmap
    rw [renumberFrom, ih (s + 1) hmap.2, ← hmap.1, Prod.mk.eta]

theorem length_retagFrom (s : ℕ) (l : List Tx) : (retagFrom s l).length = l.length := by
  induction l generalizing s with
  | nil => rfl
  | cons c cs ih => simp [retagFrom, ih]

theorem map_round_retagFrom (s : ℕ) (l : List Tx) :
    (retagFrom s l).map Tx.round = natRangeFrom s l.length := by
  induction l generalizing s with
  | nil => rfl
  | cons c cs ih => simp [retagFrom, natRangeFrom, ih]

/-- In a list of labelled columns whose labels are contiguous starting at
`s + 1`, label-based lookup (`find?`), label-based deletion (`filter`), and
label membership behave as positional access at position `j`. -/
theorem contig_find_filter (l : List (ℕ × β)) (s j : ℕ)
    (hmap : l.map Prod.fst = natRangeFrom s l.length) (hj : j < l.length) :
    l.find? (fun c => c.1 == s + j + 1) = some (l.get ⟨j, hj⟩)
    ∧ l.filter (fun c => c.1 != s + j + 1) = popAt l j
    ∧ (l.map Prod.fst).contains (s + j + 1) = true := by
  induction l generalizing s j with
  | nil => cases hj
  | cons c cs ih =>
    simp only [List.map_cons, List.length_cons, natRangeFrom, List.cons.injEq] at hmap
    match j with
    | 0 =>
      have hc : (c.1 == s + 0 + 1) = true := by rw [hmap.1]; simp
      refine ⟨?_, ?_, ?_⟩
      · simp [List.find?_cons, hc]
      · have hcne : (c.1 != s + 0 + 1) = false := by
          rw [hmap.1]; simp
        rw [List.filter_cons, hcne, popAt_cons_zero]
        simp only [Bool.false_eq_true, if_false]
        refine List.filter_eq_self.2 (fun x hx => ?_)
        have hx1 : x.1 ∈ natRangeFrom (s + 1) cs.length := by
          rw [← hmap.2]; exact List.mem_map_of_mem Prod.fst hx
        have hb := mem_natRangeFrom (s + 1) cs.length x.1 hx1
        simp only [bne_iff_ne, ne_eq]
        omega
      · simp [List.map_cons, List.contains_cons, hmap.1]
    | j + 1 =>
      have hc : (c.1 == s + (j + 1) + 1) = false := by
        simp only [hmap.1, beq_eq_false_iff_ne, ne_eq]
        omega
      have harith : s + (j + 1) + 1 = (s + 1) + j + 1 := by omega
      have hrec := ih (s + 1) j (by simpa using hmap.2)
        (by simpa using Nat.lt_of_succ_lt_succ hj)
      refine ⟨?_, ?_, ?_⟩
      · rw [List.find?_cons, hc, List.get_cons_succ, harith, hrec.1]
      · rw [List.filter_cons, popAt_cons_succ]
        have hcne : (c.1 != s + (j + 1) + 1) = true := by
          simp only [bne_iff_ne, ne_eq, hmap.1]; omega
        rw [hcne, if_pos rfl, harith, hrec.2.1]
      · rw [List.map_cons, List.contains_cons, harith, hrec.2.2]
        simp

theorem take_natRangeFrom (s n j : ℕ) (h : j ≤ n) :
    (natRangeFrom s n).take j = natRangeFrom s j := by
  induction j generalizing s n with
  | zero => rfl
  | succ j ih =>
    match n, h with
    | n + 1, h =>
      rw [show natRangeFrom s (n + 1) = (s + 1) :: natRangeFrom (s + 1) n from rfl,
        List.take_succ_cons, ih (s + 1) n (Nat.le_of_succ_le_succ h)]
      rfl

theorem natRangeFrom_append (s a b : ℕ) :
    natRangeFrom s (a + b) = natRangeFrom s a ++ natRangeFrom (s + a) b := by
  induction a generalizing s with
  | zero => rw [Nat.zero_add, Nat.add_zero]; rfl
  | succ a ih =>
    rw [show a + 1 + b = (a + b) + 1 from by omega,
      show natRangeFrom s (a + b + 1) = (s + 1) :: natRangeFrom (s + 1) (a + b) from rfl,
      show natRangeFrom s (a + 1) = (s + 1) :: natRangeFrom (s + 1) a from rfl,
      List.cons_append, ih (s + 1), show s + 1 + a = s + (a + 1) from by omega]

theorem mem_of_mem_popAt (l : List α) (i : ℕ) (x : α) (hx : x ∈ popAt l i) : x ∈ l := by
  rcases List.mem_append.1 hx with h | h
  · exact List.take_subset i l h
  · exact List.drop_subset (i + 1) l h

/-! ## History sums -/

theorem histSumOf_concat (h : List (ℕ × List (String × ℚ))) (c : ℕ × List (String × ℚ))
    (p : String) :
    histSumOf (h ++ [c]) p = histSumOf h p + colEntry p c := by
  simp [histSumOf]

theorem histSumOf_renumberFrom (s : ℕ) (l : List (ℕ × List (String × ℚ))) (p : String) :
    histSumOf (renumberFrom s l) p = histSumOf l p := by
  induction l generalizing s with
  | nil => rfl
  | cons c cs ih => simp [histSumOf, renumberFrom, colEntry] at ih ⊢; rw [ih (s + 1)]

theorem histSumOf_dropLast (l : List (ℕ × List (String × ℚ))) (p : String) (h : l ≠ []) :
    histSumOf l.dropLast p = histSumOf l p - colEntry p (l.getLast h) := by
  have h2 := histSumOf_concat l.dropLast (l.getLast h) p
  rw [List.dropLast_append_getLast h] at h2
  linarith

theorem histSumOf_popAt (l : List (ℕ × List (String × ℚ))) (p : String) (i : ℕ)
    (h : i < l.length) :
    histSumOf (popAt l i) p = histSumOf l p - colEntry p (l.get ⟨i, h⟩) :=
  sum_map_popAt l (colEntry p) i h

/-! ## Characterization of the ledger operations -/

theorem remove_round_guard (t : CardGameTracker) (k : ℕ)
    (h : k < 1 ∨ t.history.length < k) :
    t.remove_round k = (t, false) := by
  rw [CardGameTracker.remove_round, if_pos h]

theorem remove_round_false_of_no_label (t : CardGameTracker) (k : ℕ)
    (h1 : ¬ (k < 1 ∨ t.history.length < k))
    (h2 : ¬ (t.history.map Prod.fst).contains k) :
    t.remove_round k = (t, false) := by
  rw [CardGameTracker.remove_round, if_neg h1, if_pos h2]

/-- On a contiguously labelled history, `remove_round k` with `k` in range
resolves its label lookup to position `k - 1` and succeeds. -/
theorem remove_round_in_range (t : CardGameTracker) (k : ℕ)
    (hk1 : 1 ≤ k) (hk2 : k ≤ t.history.length)
    (hnames : t.history.map Prod.fst = natRangeFrom 0 t.history.length) :
    ∃ hj : k - 1 < t.history.length,
      t.remove_round k =
        ({ t with
            balances := t.players.foldl (fun m p =>
              subFromKey p (lookupD (t.history.get ⟨k - 1, hj⟩).2 p) m) t.balances
            history := renumberFrom 1 (popAt t.history (k - 1))
            tx_log :=
              if t.tx_log ≠ [] ∧ k ≤ t.tx_log.length then
                (popAt t.tx_log (k - 1)).take (k - 1)
                  ++ retagFrom (k - 1) ((popAt t.tx_log (k - 1)).drop (k - 1))
              else t.tx_log }, true) := by
  have hj : k - 1 < t.history.length := by omega
  have hkey : k = 0 + (k - 1) + 1 := by omega
  have hcff := contig_find_filter t.history 0 (k - 1) hnames hj
  rw [← hkey] at hcff
  refine ⟨hj, ?_⟩
  rw [CardGameTracker.remove_round, if_neg (by omega), if_neg (not_not_intro hcff.2.2),
    hcff.1, hcff.2.1]
  rfl

theorem undo_last_round_empty (t : CardGameTracker) (h : t.history.length = 0) :
    t.undo_last_round = (t, false) := by
  rw [CardGameTracker.undo_last_round, if_pos h]

theorem undo_last_round_nonempty (t : CardGameTracker) (h : t.history ≠ []) :
    t.undo_last_round =
      ({ t with
          balances := t.players.foldl (fun m p =>
            subFromKey p (lookupD (t.history.getLast h).2 p) m) t.balances
          history := t.history.dropLast
          tx_log := if t.tx_log.isEmpty then t.tx_log else t.tx_log.dropLast }, true) := by
  rw [CardGameTracker.undo_last_round,
    if_neg (fun h0 => h (List.length_eq_zero.1 h0)), List.getLast?_eq_getLast t.history h]
  rfl

theorem natRangeFrom_append_zero (a b : ℕ) :
    natRangeFrom 0 (a + b) = natRangeFrom 0 a ++ natRangeFrom a b := by
  rw [natRangeFrom_append 0 a b, Nat.zero_add]

theorem map_fst_alignToPlayers (players : List String) (m : List (String × ℚ)) :
    (alignToPlayers players m).map Prod.fst = players := by
  rw [alignToPlayers, List.map_map,
    show (Prod.fst ∘ fun p => ((p, lookupD m p) : String × ℚ)) = id from rfl, List.map_id]

theorem add_round_eq (t : CardGameTracker) (cc : List (String × ℤ)) (v : ℚ) (now : String) :
    t.add_round cc v now =
      ({ t with
          balances := t.players.foldl (fun m p =>
            addToKey p (lookupD (compute_payouts cc v) p) m) t.balances
          history := t.history ++ [(t.history.length + 1,
            alignToPlayers t.players (compute_payouts cc v))]
          tx_log := t.tx_log ++ [{ round := t.history.length + 1, timestamp := now,
                                   card_counts := cc, card_value := v,
                                   payouts := compute_payouts cc v }] },
       none) := rfl

/-! ## The reachable-state invariant of the ledger

Every state reachable from `mkTracker players` satisfies: the balances dict
is keyed by `players` and holds exactly the per-player history sums; the
history column labels are contiguous `1..n`; every stored column is keyed by
`players`; the log is index-aligned with the history and entry `i` carries
round number `i + 1`. -/

structure StateInv (players : List String) (t : CardGameTracker) : Prop where
  players_eq : t.players = players
  hist_names : t.history.map Prod.fst = natRangeFrom 0 t.history.length
  hist_cols : ∀ c ∈ t.history, c.2.map Prod.fst = players
  tx_len : t.tx_log.length = t.history.length
  tx_rounds : t.tx_log.map Tx.round = natRangeFrom 0 t.tx_log.length

theorem stateInv_mk (players : List String) : StateInv players (mkTracker players) :=
  ⟨rfl, rfl, fun c hc => absurd hc (List.not_mem_nil c), rfl, rfl⟩

theorem stateInv_add (players : List String) (t : CardGameTracker)
    (cc : List (String × ℤ)) (v : ℚ) (now : String) (h : StateInv players t) :
    StateInv players (t.add_round cc v now).1 := by
  obtain ⟨hp, hn, hc, hl, hr⟩ := h
  rw [add_round_eq]
  refine ⟨hp, ?_, ?_, ?_, ?_⟩
  · show (t.history ++ [(t.history.length + 1, _)]).map Prod.fst
      = natRangeFrom 0 (t.history ++ [(t.history.length + 1, _)]).length
    simp only [List.map_append, List.map_cons, List.map_nil, List.length_append,
      List.length_cons, List.length_nil]
    rw [hn, show t.history.length + (0 + 1) = t.history.length + 1 from by omega,
      natRangeFrom_succ_concat 0 t.history.length]
    simp only [List.append_cancel_left_eq, List.cons.injEq, and_true]
    omega
  · intro c hcm
    rcases List.mem_append.1 hcm with hmem | hmem
    · exact hc c hmem
    · rcases List.mem_singleton.1 hmem with rfl
      show (alignToPlayers t.players (compute_payouts cc v)).map Prod.fst = players
      rw [hp]
      exact map_fst_alignToPlayers players (compute_payouts cc v)
  · show (t.tx_log ++ [_]).length = (t.history ++ [_]).length
    simp [hl]
  · show (t.tx_log ++ [_]).map Tx.round = natRangeFrom 0 (t.tx_log ++ [_]).length
    simp only [List.map_append, List.map_cons, List.map_nil, List.length_append,
      List.length_cons, List.length_nil]
    rw [hr, hl, show t.history.length + (0 + 1) = t.history.length + 1 from by omega,
      natRangeFrom_succ_concat 0 t.history.length]
    simp only [List.append_cancel_left_eq, List.cons.injEq, and_true]
    omega

theorem stateInv_undo (players : List String) (t : CardGameTracker)
    (h : StateInv players t) : StateInv players t.undo_last_round.1 := by
  obtain ⟨hp, hn, hc, hl, hr⟩ := h
  by_cases h0 : t.history.length = 0
  · rw [undo_last_round_empty t h0]
    exact ⟨hp, hn, hc, hl, hr⟩
  · have hne : t.history ≠ [] := fun hnil => h0 (by rw [hnil]; rfl)
    obtain ⟨m, hm⟩ : ∃ m, t.history.length = m + 1 := ⟨t.history.length - 1, by omega⟩
    have htxne : t.tx_log ≠ [] := by
      intro hx
      rw [hx] at hl
      simp only [List.length_nil] at hl
      omega
    have htxe : t.tx_log.isEmpty = false := List.isEmpty_eq_false.2 htxne
    have htxm : t.tx_log.length = m + 1 := by rw [hl, hm]
    rw [undo_last_round_nonempty t hne]
    refine ⟨hp, ?_, ?_, ?_, ?_⟩
    · show t.history.dropLast.map Prod.fst = natRangeFrom 0 t.history.dropLast.length
      rw [List.map_dropLast, hn, List.length_dropLast, hm, Nat.add_sub_cancel,
        natRangeFrom_succ_concat 0 m, List.dropLast_concat]
    · intro c hcm
      exact hc c ((List.dropLast_sublist t.history).subset hcm)
    · show (if t.tx_log.isEmpty then t.tx_log else t.tx_log.dropLast).length
        = t.history.dropLast.length
      rw [htxe]
      simp only [Bool.false_eq_true, if_false, List.length_dropLast, hl]
    · show (if t.tx_log.isEmpty then t.tx_log else t.tx_log.dropLast).map Tx.round
        = natRangeFrom 0 (if t.tx_log.isEmpty then t.tx_log else t.tx_log.dropLast).length
      rw [htxe]
      simp only [Bool.false_eq_true, if_false]
      rw [List.map_dropLast, hr, List.length_dropLast, htxm, Nat.add_sub_cancel,
        natRangeFrom_succ_concat 0 m, List.dropLast_concat]

theorem stateInv_remove (players : List String) (t : CardGameTracker) (k : ℕ)
    (h : StateInv players t) : StateInv players (t.remove_round k).1 := by
  obtain ⟨hp, hn, hc, hl, hr⟩ := h
  by_cases hg : k < 1 ∨ t.history.length < k
  · rw [remove_round_guard t k hg]
    exact ⟨hp, hn, hc, hl, hr⟩
  · push_neg at hg
    obtain ⟨hj, heq⟩ := remove_round_in_range t k hg.1 hg.2 hn
    have htxj : k - 1 < t.tx_log.length := by omega
    have htxcond : t.tx_log ≠ [] ∧ k ≤ t.tx_log.length := by
      constructor
      · intro hx
        rw [hx] at hl
        simp only [List.length_nil] at hl
        omega
      · omega
    rw [heq]
    refine ⟨hp, ?_, ?_, ?_, ?_⟩
    · show (renumberFrom 1 (popAt t.history (k - 1))).map Prod.fst
        = natRangeFrom 0 (renumberFrom 1 (popAt t.history (k - 1))).length
      rw [length_renumberFrom]
      exact map_fst_renumberFrom 0 (popAt t.history (k - 1))
    · intro c hcm
      have hsnd : c.2 ∈ (renumberFrom 1 (popAt t.history (k - 1))).map Prod.snd :=
        List.mem_map_of_mem Prod.snd hcm
      rw [map_snd_renumberFrom] at hsnd
      rcases List.mem_map.1 hsnd with ⟨d, hd, hds⟩
      rw [← hds]
      exact hc d (mem_of_mem_popAt t.history (k - 1) d hd)
    · show (if t.tx_log ≠ [] ∧ k ≤ t.tx_log.length then
            (popAt t.tx_log (k - 1)).take (k - 1)
              ++ retagFrom (k - 1) ((popAt t.tx_log (k - 1)).drop (k - 1))
          else t.tx_log).length
        = (renumberFrom 1 (popAt t.history (k - 1))).length
      rw [if_pos htxcond, length_renumberFrom, length_popAt t.history (k - 1) hj]
      simp only [List.length_append, List.length_take, List.length_drop, length_retagFrom,
        length_popAt t.tx_log (k - 1) htxj]
      omega
    · show (if t.tx_log ≠ [] ∧ k ≤ t.tx_log.length then
            (popAt t.tx_log (k - 1)).take (k - 1)
              ++ retagFrom (k - 1) ((popAt t.tx_log (k - 1)).drop (k - 1))
          else t.tx_log).map Tx.round
        = natRangeFrom 0 (if t.tx_log ≠ [] ∧ k ≤ t.tx_log.length then
            (popAt t.tx_log (k - 1)).take (k - 1)
              ++ retagFrom (k - 1) ((popAt t.tx_log (k - 1)).drop (k - 1))
          else t.tx_log).length
      rw [if_pos htxcond]
      rw [List.map_append, List.map_take, map_popAt Tx.round t.tx_log (k - 1),
        map_round_retagFrom, hr]
      rw [show popAt (natRangeFrom 0 t.tx_log.length) (k - 1)
          = (natRangeFrom 0 t.tx_log.length).take (k - 1)
            ++ (natRangeFrom 0 t.tx_log.length).drop k from by
        rw [popAt, show k - 1 + 1 = k from by omega]]
      rw [List.take_append_eq_append_take, List.take_take]
      have hlen1 : ((natRangeFrom 0 t.tx_log.length).take (k - 1)).length = k - 1 := by
        rw [List.length_take, length_natRangeFrom]
        omega
      rw [hlen1, show min (k - 1) (k - 1) = k - 1 from by omega,
        show k - 1 - (k - 1) = 0 from by omega, List.take_zero, List.append_nil]
      rw [take_natRangeFrom 0 t.tx_log.length (k - 1) (by omega)]
      have hlen2 : ((popAt t.tx_log (k - 1)).drop (k - 1)).length = t.tx_log.length - k := by
        rw [List.length_drop, length_popAt t.tx_log (k - 1) htxj]
        omega
      rw [hlen2]
      have hlen3 : ((popAt t.tx_log (k - 1)).take (k - 1)
          ++ retagFrom (k - 1) ((popAt t.tx_log (k - 1)).drop (k - 1))).length
          = (k - 1) + (t.tx_log.length - k) := by
        simp only [List.length_append, List.length_take, List.length_drop, length_retagFrom,
          length_popAt t.tx_log (k - 1) htxj]
        omega
      rw [hlen3, natRangeFrom_append_zero (k - 1) (t.tx_log.length - k)]

theorem stateInv_exec (players : List String) (t : CardGameTracker) (op : Op)
    (h : StateInv players t) : StateInv players (exec t op) := by
  cases op with
  | add cc v now => exact stateInv_add players t cc v now h
  | undo => exact stateInv_undo players t h
  | remove k => exact stateInv_remove players t k h

theorem stateInv_execs (players : List String) (t : CardGameTracker) (ops : List Op)
    (h : StateInv players t) : StateInv players (execs t ops) := by
  induction ops generalizing t with
  | nil => exact h
  | cons op ops ih => exact ih (exec t op) (stateInv_exec players t op h)

theorem stateInv_reachable (players : List String) (ops : List Op) :
    StateInv players (execs (mkTracker players) ops) :=
  stateInv_execs players (mkTracker players) ops (stateInv_mk players)

theorem stateInv_reach (players : List String) (ops : List Op) :
    StateInv players (reach players ops) :=
  stateInv_reachable players ops

theorem zip_self_map (l : List α) (f : α → β) :
    l.zip (l.map f) = l.map (fun a => (a, f a)) := by
  induction l with
  | nil => rfl
  | cons a t ih => simp [ih]

theorem round_get_of_map_round (l : List Tx) (h : l.map Tx.round = natRangeFrom 0 l.length)
    (i : ℕ) (hi : i < l.length) : (l.get ⟨i, hi⟩).round = i + 1 := by
  have him : i < (l.map Tx.round).length := by simpa using hi
  have h1 : (l.map Tx.round).get ⟨i, him⟩ = Tx.round (l.get ⟨i, hi⟩) := List.get_map Tx.round
  have h2 : (l.map Tx.round).get ⟨i, him⟩
      = (natRangeFrom 0 l.length).get ⟨i, by rw [length_natRangeFrom]; exact hi⟩ := by
    rw [List.get_of_eq h ⟨i, him⟩]
  rw [get_natRangeFrom 0 l.length i] at h2
  have h3 : Tx.round (l.get ⟨i, hi⟩) = 0 + i + 1 := by rw [← h1]; exact h2
  omega

/-- Restoring the split-orientation serialization of a history whose columns
are all keyed by a duplicate-free player list rebuilds the history exactly. -/
theorem dfFromSplit_roundtrip (players : List String) (hnd : players.Nodup)
    (hist : List (ℕ × List (String × ℚ)))
    (hcols : ∀ c ∈ hist, c.2.map Prod.fst = players) :
    dfFromSplit players (hist.map Prod.fst)
      (players.map (fun p => hist.map (fun c => lookupD c.2 p))) = hist := by
  induction hist with
  | nil => rfl
  | cons c hist ih =>
    have hstep : dfFromSplit players (c.1 :: hist.map Prod.fst)
        (players.map (fun p => lookupD c.2 p :: hist.map (fun d => lookupD d.2 p)))
        = (c.1, players.zip ((players.map (fun p =>
            lookupD c.2 p :: hist.map (fun d => lookupD d.2 p))).map (fun row => row.headD 0)))
          :: dfFromSplit players (hist.map Prod.fst)
            ((players.map (fun p => lookupD c.2 p :: hist.map (fun d => lookupD d.2 p))).map
              (fun row => row.drop 1)) := rfl
    rw [show players.map (fun p => (c :: hist).map (fun d => lookupD d.2 p))
        = players.map (fun p => lookupD c.2 p :: hist.map (fun d => lookupD d.2 p)) from rfl,
      List.map_cons, hstep, List.map_map, List.map_map]
    have hhead : (fun row => List.headD row 0) ∘
        (fun p => lookupD c.2 p :: hist.map (fun d => lookupD d.2 p))
        = fun p => lookupD c.2 p := rfl
    have hdrop : (fun row => List.drop 1 row) ∘
        (fun p => lookupD c.2 p :: hist.map (fun d => lookupD d.2 p))
        = fun p => hist.map (fun d => lookupD d.2 p) := rfl
    rw [hhead, hdrop, zip_self_map players (fun p => lookupD c.2 p)]
    have halign : players.map (fun p => (p, lookupD c.2 p)) = c.2 :=
      alignToPlayers_self c.2 players (hcols c (List.mem_cons_self c hist)) hnd
    rw [halign, Prod.mk.eta, ih (fun d hd => hcols d (List.mem_cons_of_mem c hd))]

/-- On any ledger state satisfying the reachable-state invariant,
`undo_last_round()` computes exactly the same result as
`remove_round(len(history))`. -/
theorem undo_eq_remove_of_inv (players : List String) (t : CardGameTracker)
    (h : StateInv players t) :
    t.undo_last_round = t.remove_round t.history.length := by
  by_cases h0 : t.history.length = 0
  · rw [undo_last_round_empty t h0, h0, remove_round_guard t 0 (Or.inl (by omega))]
  · have hne : t.history ≠ [] := fun hnil => h0 (by rw [hnil]; rfl)
    have hn1 : 1 ≤ t.history.length := by omega
    obtain ⟨hj, heq⟩ := remove_round_in_range t t.history.length hn1 le_rfl h.hist_names
    have htxne : t.tx_log ≠ [] := by
      intro hx
      have hlen := h.tx_len
      rw [hx] at hlen
      simp only [List.length_nil] at hlen
      omega
    have htxe : t.tx_log.isEmpty = false := List.isEmpty_eq_false.2 htxne
    have hcond : t.tx_log ≠ [] ∧ t.history.length ≤ t.tx_log.length := by
      refine ⟨htxne, ?_⟩
      rw [h.tx_len]
    have hlast : t.history.getLast hne = t.history.get ⟨t.history.length - 1, hj⟩ :=
      List.getLast_eq_get t.history hne
    obtain ⟨m, hm⟩ : ∃ m, t.history.length = m + 1 := ⟨t.history.length - 1, by omega⟩
    have hh : renumberFrom 1 (popAt t.history (t.history.length - 1)) = t.history.dropLast := by
      rw [popAt_last t.history hne]
      have hmapfst : t.history.dropLast.map Prod.fst
          = natRangeFrom 0 t.history.dropLast.length := by
        rw [List.map_dropLast, h.hist_names, List.length_dropLast, hm, Nat.add_sub_cancel,
          natRangeFrom_succ_concat 0 m, List.dropLast_concat]
      exact renumberFrom_eq_self 0 t.history.dropLast hmapfst
    have hpop : popAt t.tx_log (t.history.length - 1) = t.tx_log.dropLast := by
      rw [show t.history.length - 1 = t.tx_log.length - 1 from by rw [h.tx_len]]
      exact popAt_last t.tx_log htxne
    have htx : (popAt t.tx_log (t.history.length - 1)).take (t.history.length - 1)
        ++ retagFrom (t.history.length - 1)
          ((popAt t.tx_log (t.history.length - 1)).drop (t.history.length - 1))
        = t.tx_log.dropLast := by
      rw [hpop]
      have hdl : t.tx_log.dropLast.length ≤ t.history.length - 1 := by
        rw [List.length_dropLast, h.tx_len]
      rw [List.take_of_length_le hdl, List.drop_eq_nil_of_le hdl]
      rw [show retagFrom (t.history.length - 1) [] = [] from rfl, List.append_nil]
    rw [undo_last_round_nonempty t hne, heq, hlast, hh, if_pos hcond, htx, htxe]
    simp only [Bool.false_eq_true, if_false]

/-! ## The balance law on duplicate-free player lists

The Python balance updates are in-place dict loops over `self.players`; on a
duplicate-free player list they amount to a pointwise rebuild of the
balances dict, which yields the balance-consistency invariant. -/

theorem addToKey_cons_eq (p : String) (x a : ℚ) (m : List (String × ℚ)) :
    addToKey p x ((p, a) :: m) = (p, a + x) :: m := by
  simp [addToKey]

theorem addToKey_cons_ne (p q : String) (x b : ℚ) (m : List (String × ℚ)) (h : q ≠ p) :
    addToKey p x ((q, b) :: m) = (q, b) :: addToKey p x m := by
  simp [addToKey, h]

theorem subFromKey_cons_eq (p : String) (x a : ℚ) (m : List (String × ℚ)) :
    subFromKey p x ((p, a) :: m) = (p, a - x) :: m := by
  simp [subFromKey]

theorem subFromKey_cons_ne (p q : String) (x b : ℚ) (m : List (String × ℚ)) (h : q ≠ p) :
    subFromKey p x ((q, b) :: m) = (q, b) :: subFromKey p x m := by
  simp [subFromKey, h]

theorem dictInsert_cons_ne (p q : String) (x b : ℚ) (m : List (String × ℚ)) (h : q ≠ p) :
    dictInsert p x ((q, b) :: m) = (q, b) :: dictInsert p x m := by
  simp [dictInsert, h]

theorem foldl_addToKey_cons_ne (ps : List String) (g : String → ℚ) (a : String) (b : ℚ)
    (m : List (String × ℚ)) (h : ∀ p ∈ ps, p ≠ a) :
    ps.foldl (fun m p => addToKey p (g p) m) ((a, b) :: m)
      = (a, b) :: ps.foldl (fun m p => addToKey p (g p) m) m := by
  induction ps generalizing m with
  | nil => rfl
  | cons q ps ih =>
    rw [List.foldl_cons, List.foldl_cons,
      addToKey_cons_ne q a (g q) b m (Ne.symm (h q (List.mem_cons_self q ps))),
      ih (addToKey q (g q) m) (fun p hp => h p (List.mem_cons_of_mem q hp))]

theorem foldl_subFromKey_cons_ne (ps : List String) (g : String → ℚ) (a : String) (b : ℚ)
    (m : List (String × ℚ)) (h : ∀ p ∈ ps, p ≠ a) :
    ps.foldl (fun m p => subFromKey p (g p) m) ((a, b) :: m)
      = (a, b) :: ps.foldl (fun m p => subFromKey p (g p) m) m := by
  induction ps generalizing m with
  | nil => rfl
  | cons q ps ih =>
    rw [List.foldl_cons, List.foldl_cons,
      subFromKey_cons_ne q a (g q) b m (Ne.symm (h q (List.mem_cons_self q ps))),
      ih (subFromKey q (g q) m) (fun p hp => h p (List.mem_cons_of_mem q hp))]

theorem foldl_dictInsert_cons_ne (ps : List String) (a : String) (b : ℚ)
    (m : List (String × ℚ)) (h : ∀ p ∈ ps, p ≠ a) :
    ps.foldl (fun m p => dictInsert p 0 m) ((a, b) :: m)
      = (a, b) :: ps.foldl (fun m p => dictInsert p 0 m) m := by
  induction ps generalizing m with
  | nil => rfl
  | cons q ps ih =>
    rw [List.foldl_cons, List.foldl_cons,
      dictInsert_cons_ne q a 0 b m (Ne.symm (h q (List.mem_cons_self q ps))),
      ih (dictInsert q 0 m) (fun p hp => h p (List.mem_cons_of_mem q hp))]

theorem ne_of_nodup_head (a : String) (ps : List String) (hnd : (a :: ps).Nodup) :
    ∀ p ∈ ps, p ≠ a := by
  intro p hp hpa
  exact (List.nodup_cons.1 hnd).1 (hpa ▸ hp)

/-- A full pass of `m[p] += g p` over a duplicate-free player list, on a dict
keyed by exactly that list, is a pointwise rebuild. -/
theorem foldl_addToKey_map (players : List String) (f g : String → ℚ)
    (hnd : players.Nodup) :
    players.foldl (fun m p => addToKey p (g p) m) (players.map (fun p => (p, f p)))
      = players.map (fun p => (p, f p + g p)) := by
  induction players with
  | nil => rfl
  | cons a ps ih =>
    rw [List.map_cons, List.foldl_cons, addToKey_cons_eq a (g a) (f a),
      foldl_addToKey_cons_ne ps g a (f a + g a) _ (ne_of_nodup_head a ps hnd),
      ih (List.nodup_cons.1 hnd).2, List.map_cons]

/-- A full pass of `m[p] -= g p` over a duplicate-free player list, on a dict
keyed by exactly that list, is a pointwise rebuild. -/
theorem foldl_subFromKey_map (players : List String) (f g : String → ℚ)
    (hnd : players.Nodup) :
    players.foldl (fun m p => subFromKey p (g p) m) (players.map (fun p => (p, f p)))
      = players.map (fun p => (p, f p - g p)) := by
  induction players with
  | nil => rfl
  | cons a ps ih =>
    rw [List.map_cons, List.foldl_cons, subFromKey_cons_eq a (g a) (f a),
      foldl_subFromKey_cons_ne ps g a (f a - g a) _ (ne_of_nodup_head a ps hnd),
      ih (List.nodup_cons.1 hnd).2, List.map_cons]

/-- `{p: 0.0 for p in players}` on a duplicate-free player list is one zero
entry per player, in order. -/
theorem foldl_dictInsert_map (players : List String) (hnd : players.Nodup) :
    players.foldl (fun m p => dictInsert p 0 m) []
      = players.map (fun p => (p, (0 : ℚ))) := by
  induction players with
  | nil => rfl
  | cons a ps ih =>
    rw [List.foldl_cons,
      show dictInsert a 0 ([] : List (String × ℚ)) = [(a, 0)] from rfl,
      foldl_dictInsert_cons_ne ps a 0 [] (ne_of_nodup_head a ps hnd),
      ih (List.nodup_cons.1 hnd).2, List.map_cons]

/-- One step of the balance-consistency invariant: each operation keeps the
balances dict equal to the per-player history sums, on a duplicate-free
player list. -/
theorem balances_histSum_exec (players : List String) (t : CardGameTracker) (op : Op)
    (hnd : players.Nodup) (hinv : StateInv players t)
    (hbal : t.balances = players.map (fun p => (p, histSumOf t.history p))) :
    (exec t op).balances
      = players.map (fun p => (p, histSumOf (exec t op).history p)) := by
  cases op with
  | add cc v now =>
    show (t.add_round cc v now).1.balances
      = players.map (fun p => (p, histSumOf (t.add_round cc v now).1.history p))
    rw [add_round_eq]
    show t.players.foldl (fun m p => addToKey p (lookupD (compute_payouts cc v) p) m)
        t.balances
      = players.map (fun p => (p, histSumOf (t.history ++ [(t.history.length + 1,
          alignToPlayers t.players (compute_payouts cc v))]) p))
    rw [hinv.players_eq, hbal,
      foldl_addToKey_map players (fun p => histSumOf t.history p)
        (fun p => lookupD (compute_payouts cc v) p) hnd]
    refine List.map_congr_left (fun p hpm => ?_)
    rw [histSumOf_concat]
    have h2 : colEntry p (t.history.length + 1,
        alignToPlayers players (compute_payouts cc v))
        = lookupD (compute_payouts cc v) p :=
      lookupD_alignToPlayers players _ p hpm
    rw [h2]
  | undo =>
    show t.undo_last_round.1.balances
      = players.map (fun p => (p, histSumOf t.undo_last_round.1.history p))
    by_cases h0 : t.history.length = 0
    · rw [undo_last_round_empty t h0]
      exact hbal
    · have hne : t.history ≠ [] := fun hnil => h0 (by rw [hnil]; rfl)
      rw [undo_last_round_nonempty t hne]
      show t.players.foldl (fun m p =>
          subFromKey p (lookupD (t.history.getLast hne).2 p) m) t.balances
        = players.map (fun p => (p, histSumOf t.history.dropLast p))
      rw [hinv.players_eq, hbal,
        foldl_subFromKey_map players (fun p => histSumOf t.history p)
          (fun p => lookupD (t.history.getLast hne).2 p) hnd]
      refine List.map_congr_left (fun p hpm => ?_)
      rw [histSumOf_dropLast t.history p hne]
      rfl
  | remove k =>
    show (t.remove_round k).1.balances
      = players.map (fun p => (p, histSumOf (t.remove_round k).1.history p))
    by_cases hg : k < 1 ∨ t.history.length < k
    · rw [remove_round_guard t k hg]
      exact hbal
    · push_neg at hg
      obtain ⟨hj, heq⟩ := remove_round_in_range t k hg.1 hg.2 hinv.hist_names
      rw [heq]
      show t.players.foldl (fun m p =>
          subFromKey p (lookupD (t.history.get ⟨k - 1, hj⟩).2 p) m) t.balances
        = players.map (fun p =>
            (p, histSumOf (renumberFrom 1 (popAt t.history (k - 1))) p))
      rw [hinv.players_eq, hbal,
        foldl_subFromKey_map players (fun p => histSumOf t.history p)
          (fun p => lookupD (t.history.get ⟨k - 1, hj⟩).2 p) hnd]
      refine List.map_congr_left (fun p hpm => ?_)
      rw [histSumOf_renumberFrom 1 _ p, histSumOf_popAt t.history p (k - 1) hj]
      rfl

theorem balances_histSum_execs (players : List String) (ops : List Op)
    (t : CardGameTracker) (hnd : players.Nodup) (hinv : StateInv players t)
    (hbal : t.balances = players.map (fun p => (p, histSumOf t.history p))) :
    (execs t ops).balances
      = players.map (fun p => (p, histSumOf (execs t ops).history p)) := by
  induction ops generalizing t with
  | nil => exact hbal
  | cons op ops ih =>
    exact ih (exec t op) (stateInv_exec players t op hinv)
      (balances_histSum_exec players t op hnd hinv hbal)

theorem balances_histSum_reach (players : List String) (ops : List Op)
    (hnd : players.Nodup) :
    (reach players ops).balances
      = players.map (fun p => (p, histSumOf (reach players ops).history p)) := by
  refine balances_histSum_execs players ops (mkTracker players) hnd (stateInv_mk players) ?_
  show players.foldl (fun m p => dictInsert p 0 m) []
    = players.map (fun p => (p, histSumOf ([] : List (ℕ × List (String × ℚ))) p))
  exact foldl_dictInsert_map players hnd

/-! ## Claim theorems -/

/-- C1: with exact arithmetic, the payout mapping returned by
`compute_payouts` on a non-empty card-count mapping with a positive card
value sums to exactly 0 over all players. -/
theorem compute_payouts_zero_sum (cc : List (String × ℤ)) (v : ℚ)
    (hne : cc ≠ []) (hnd : (cc.map Prod.fst).Nodup)
    (hnn : ∀ c ∈ cc, 0 ≤ c.2) (hv : 0 < v) :
    ((compute_payouts cc v).map Prod.snd).sum = 0 := by
  have hmap : (compute_payouts cc v).map Prod.snd
      = cc.map (fun p => step1Delta cc v p + winnerDelta cc v p) := by
    simp [compute_payouts]
  rw [hmap]
  have hsplit : cc.map (fun p => step1Delta cc v p + winnerDelta cc v p)
      = cc.map (fun p => (cc.map (fun q =>
          (pairPayment cc.length v q p - pairPayment cc.length v p q)
            + (bonusPayment v q p - bonusPayment v p q))).sum) := by
    refine List.map_congr_left (fun p _ => ?_)
    rw [step1Delta, winnerDelta,
      ← sum_map_add cc (fun q => pairPayment cc.length v q p - pairPayment cc.length v p q)
        (fun q => bonusPayment v q p - bonusPayment v p q)]
  rw [hsplit]
  exact sum_antisymm cc _ (fun a b => by ring)

/-- C6: in the winner-bonus layer of `compute_payouts`, a player with 0 cards
nets a gain of exactly `2 * card_value` per non-winner, and a player with a
non-zero count nets a loss of exactly `2 * card_value` per winner; in
particular winners neither gain from nor lose to other winners in this
layer. -/
theorem winner_bonus_layer (cc : List (String × ℤ)) (v : ℚ)
    (hnd : (cc.map Prod.fst).Nodup) (r : String × ℤ) (hr : r ∈ cc) :
    (r.2 = 0 → winnerDelta cc v r = 2 * v * ((cc.filter (fun q => q.2 != 0)).length : ℚ))
    ∧ (r.2 ≠ 0 →
        winnerDelta cc v r = -(2 * v) * ((cc.filter (fun q => q.2 == 0)).length : ℚ)) := by
  constructor
  · intro hr0
    have hpt : cc.map (fun q => bonusPayment v q r - bonusPayment v r q)
        = cc.map (fun q => if q.2 != 0 then 2 * v else 0) := by
      refine List.map_congr_left (fun q hq => ?_)
      by_cases hname : q.1 = r.1
      · have hqr : q = r := eq_of_mem_of_fst_eq cc hnd hq hr hname
        subst hqr
        simp [bonusPayment, hr0]
      · by_cases hq0 : q.2 = 0 <;>
          simp [bonusPayment, hr0, hq0, hname, Ne.symm hname]
    rw [winnerDelta, hpt, sum_map_ite_count, List.countP_eq_length_filter]
  · intro hrn
    have hpt : cc.map (fun q => bonusPayment v q r - bonusPayment v r q)
        = cc.map (fun q => if q.2 == 0 then -(2 * v) else 0) := by
      refine List.map_congr_left (fun q hq => ?_)
      by_cases hq0 : q.2 = 0
      · have hname : q.1 ≠ r.1 := by
          intro hname
          exact hrn (by
            have hqr : q = r := eq_of_mem_of_fst_eq cc hnd hq hr hname
            rw [← hqr, hq0])
        simp [bonusPayment, hq0, hrn, hname, Ne.symm hname]
      · simp [bonusPayment, hq0, hrn]
    rw [winnerDelta, hpt, sum_map_ite_count, List.countP_eq_length_filter]

/-- Witness for C6: two players, the winner `("A", 0)` nets `2 * v` from the
single non-winner, and the non-winner `("B", 3)` loses `2 * v` to the single
winner. -/
theorem winner_bonus_layer_witness :
    (([("A", (0 : ℤ)), ("B", 3)].map Prod.fst).Nodup ∧ ("A", (0 : ℤ)) ∈
        [("A", (0 : ℤ)), ("B", 3)]) ∧
      (((("A", (0 : ℤ)).2 = 0) → winnerDelta [("A", (0 : ℤ)), ("B", 3)] 1 ("A", 0)
          = 2 * 1 * (([("A", (0 : ℤ)), ("B", 3)].filter (fun q => q.2 != 0)).length : ℚ))
        ∧ ((("A", (0 : ℤ)).2 ≠ 0) → winnerDelta [("A", (0 : ℤ)), ("B", 3)] 1 ("A", 0)
          = -(2 * 1) *
              (([("A", (0 : ℤ)), ("B", 3)].filter (fun q => q.2 == 0)).length : ℚ))) :=
  ⟨⟨by decide, by decide⟩,
    winner_bonus_layer [("A", 0), ("B", 3)] 1 (by decide) ("A", 0) (by decide)⟩

/-- C8 (counterexample): `compute_payouts` does not reject negative card
counts; at `card_counts = {A: -1, B: 1}` and `card_value = 1` it returns the
payout vector `{A: 2, B: -2}` instead of raising any error (the source
contains no validation and no `InvalidInput` machinery at all). -/
theorem compute_payouts_negative_counts_counterexample :
    compute_payouts [("A", (-1 : ℤ)), ("B", 1)] 1 = [("A", 2), ("B", -2)] := by
  have h1 : ¬ (("B" : String) = "A") := by decide
  norm_num [compute_payouts, step1Delta, winnerDelta, pairPayment, bonusPayment,
    multiplier, thresholds, h1]

/-- C8 (amended): `compute_payouts` performs no validation of card counts; on
any input, negative counts included, it totally computes a payout vector
keyed by exactly the input players. -/
theorem compute_payouts_total (cc : List (String × ℤ)) (v : ℚ) :
    (compute_payouts cc v).map Prod.fst = cc.map Prod.fst := by
  simp [compute_payouts]

/-- C5 (code evaluation): `compute_payouts` takes no `special_hands`
parameter, so its result at the card counts of the failing UI input
(`{A: 0, B: 5, C: 8}`) contains no special-hand transfer for any declared
special hands: B's net is always `-4 * card_value`, whereas one declared
special hand for B would have to add `5 * card_value` from each other
player (`main.py` passes `special_hands` to `add_round`, which accepts no
such argument). -/
theorem compute_payouts_ignores_special_hands (v : ℚ) :
    compute_payouts [("A", (0 : ℤ)), ("B", 5), ("C", 8)] v
      = [("A", 17 * v), ("B", -(4 * v)), ("C", -(13 * v))] := by
  have h1 : ¬ (("B" : String) = "A") := by decide
  have h2 : ¬ (("C" : String) = "A") := by decide
  have h3 : ¬ (("C" : String) = "B") := by decide
  norm_num [compute_payouts, step1Delta, winnerDelta, pairPayment, bonusPayment,
    multiplier, thresholds, h1, h2, h3]
  refine ⟨by ring, by ring, by ring⟩

/-- Witness for C1 at a concrete round: two players, card value 1. -/
theorem compute_payouts_zero_sum_witness :
    ([("A", (0 : ℤ)), ("B", 5)] ≠ [] ∧
        (([("A", (0 : ℤ)), ("B", 5)].map Prod.fst).Nodup) ∧
        (∀ c ∈ [("A", (0 : ℤ)), ("B", 5)], 0 ≤ c.2) ∧ (0 : ℚ) < 1) ∧
      ((compute_payouts [("A", (0 : ℤ)), ("B", 5)] 1).map Prod.snd).sum = 0 :=
  ⟨⟨by decide, by decide, by decide, zero_lt_one⟩,
    compute_payouts_zero_sum [("A", 0), ("B", 5)] 1 (by decide) (by decide)
      (by decide) zero_lt_one⟩

/-- C2: for every sequence of add/undo/remove operations on a fresh tracker
with distinct player names (each add called with card counts keyed exactly
by the player set), at every point and for every player, the player's
balance equals the sum over all rounds currently in history of that round's
stored payout entry for the player.  (Quantifying over all operation
sequences covers every intermediate point; duplicate-free players are
required because the source's per-occurrence balance loop counts a
duplicated name several times against a single stored history entry.) -/
theorem balance_consistency (players : List String) (ops : List Op)
    (hnd : players.Nodup) (hv : ValidAdds players ops) (p : String) (hp : p ∈ players) :
    lookupD (reach players ops).balances p = histSumOf (reach players ops).history p := by
  rw [balances_histSum_reach players ops hnd]
  exact lookupD_map_of_mem players _ p hp

/-- Witness for C2: one recorded round on players `A`, `B`. -/
theorem balance_consistency_witness :
    (["A", "B"].Nodup ∧ ValidAdds ["A", "B"] [Op.add [("A", (0 : ℤ)), ("B", 5)] 1 "t0"]
        ∧ "A" ∈ ["A", "B"]) ∧
      lookupD (reach ["A", "B"] [Op.add [("A", (0 : ℤ)), ("B", 5)] 1 "t0"]).balances "A"
        = histSumOf (reach ["A", "B"] [Op.add [("A", (0 : ℤ)), ("B", 5)] 1 "t0"]).history "A" :=
  ⟨⟨by decide,
    by
      intro op hop
      simp only [List.mem_singleton] at hop
      subst hop
      exact ⟨by decide, fun q => by simp⟩,
    by decide⟩,
    balance_consistency ["A", "B"] [Op.add [("A", (0 : ℤ)), ("B", 5)] 1 "t0"]
      (by decide)
      (by
        intro op hop
        simp only [List.mem_singleton] at hop
        subst hop
        exact ⟨by decide, fun q => by simp⟩)
      "A" (by decide)⟩

/-- C3: removing round `k` (in range) from a reachable tracker with rounds
`1..n` leaves exactly the other `n - 1` stored rounds, in order, with the
contiguous labels `1..n-1` (rounds after `k` shifted down by one); the log
stays index-aligned with the history and entry `i` carries round number
`i + 1`. -/
theorem remove_round_renumbering (players : List String) (ops : List Op) (k : ℕ)
    (hk1 : 1 ≤ k) (hk2 : k ≤ (reach players ops).history.length) :
    ((reach players ops).remove_round k).2 = true
    ∧ ((reach players ops).remove_round k).1.history.map Prod.fst
        = natRangeFrom 0 ((reach players ops).history.length - 1)
    ∧ ((reach players ops).remove_round k).1.history.map Prod.snd
        = popAt ((reach players ops).history.map Prod.snd) (k - 1)
    ∧ ((reach players ops).remove_round k).1.tx_log.length
        = ((reach players ops).remove_round k).1.history.length
    ∧ ∀ i (hi : i < ((reach players ops).remove_round k).1.tx_log.length),
        (((reach players ops).remove_round k).1.tx_log.get ⟨i, hi⟩).round = i + 1 := by
  have inv := stateInv_reach players ops
  have invr := stateInv_remove players (reach players ops) k inv
  obtain ⟨hj, heq⟩ := remove_round_in_range (reach players ops) k hk1 hk2 inv.hist_names
  refine ⟨by rw [heq], ?_, ?_, invr.tx_len, ?_⟩
  · rw [invr.hist_names, heq]
    show natRangeFrom 0 (renumberFrom 1 (popAt (reach players ops).history (k - 1))).length
      = natRangeFrom 0 ((reach players ops).history.length - 1)
    rw [length_renumberFrom, length_popAt (reach players ops).history (k - 1) hj]
  · rw [heq]
    show (renumberFrom 1 (popAt (reach players ops).history (k - 1))).map Prod.snd
      = popAt ((reach players ops).history.map Prod.snd) (k - 1)
    rw [map_snd_renumberFrom, map_popAt]
  · intro i hi
    exact round_get_of_map_round _ invr.tx_rounds i hi

/-- Witness for C3: three recorded rounds on a single player, removing
round 2. -/
theorem remove_round_renumbering_witness :
    (1 ≤ 2 ∧ 2 ≤ (reach ["A"] [Op.add [("A", (3 : ℤ))] 1 "a", Op.add [("A", 4)] 1 "b",
        Op.add [("A", 5)] 1 "c"]).history.length) ∧
      ((reach ["A"] [Op.add [("A", (3 : ℤ))] 1 "a", Op.add [("A", 4)] 1 "b",
        Op.add [("A", 5)] 1 "c"]).remove_round 2).2 = true :=
  ⟨⟨by decide, by decide⟩,
    (remove_round_renumbering ["A"] [Op.add [("A", (3 : ℤ))] 1 "a", Op.add [("A", 4)] 1 "b",
      Op.add [("A", 5)] 1 "c"] 2 (by decide) (by decide)).1⟩

/-- C4: on every reachable tracker, `undo_last_round()` returns exactly the
same state and boolean as `remove_round(n)` where `n` is the current number
of rounds; with 0 rounds both are a `false` no-op. -/
theorem undo_eq_remove_last (players : List String) (ops : List Op) :
    (reach players ops).undo_last_round
      = (reach players ops).remove_round (reach players ops).history.length
    ∧ ((reach players ops).history.length = 0 →
        (reach players ops).undo_last_round = (reach players ops, false)) :=
  ⟨undo_eq_remove_of_inv players (reach players ops) (stateInv_reach players ops),
   fun h0 => undo_last_round_empty (reach players ops) h0⟩

/-- Witness for C4: on a fresh tracker (0 rounds) the undo is a `false`
no-op, as is `remove_round(0)`. -/
theorem undo_eq_remove_last_witness :
    (reach ["A"] []).history.length = 0
    ∧ (reach ["A"] []).undo_last_round = (reach ["A"] [], false) :=
  ⟨rfl, (undo_eq_remove_last ["A"] []).2 rfl⟩

/-- C7 (counterexample): `add_round` has no `return` statement, so it returns
`None`, not the round number: on a fresh two-player tracker the first
`add_round` yields `None` rather than `1`. -/
theorem add_round_returns_none :
    ((mkTracker ["A", "B"]).add_round [("A", 0), ("B", 1)] 1 "t0").2 = none
    ∧ ¬ ((mkTracker ["A", "B"]).add_round [("A", 0), ("B", 1)] 1 "t0").2 = some 1 :=
  ⟨rfl, by simp [add_round_eq]⟩

/-- C7 (amended): a successful `add_round` on a reachable tracker with `n`
recorded rounds records the new round under the 1-based number `n + 1` (as
the new history column label and as the `round` field of the appended log
entry, making the log read `1..n+1`), but the method itself returns `None`. -/
theorem add_round_records_next_round (players : List String) (ops : List Op)
    (cc : List (String × ℤ)) (v : ℚ) (now : String) :
    ((reach players ops).add_round cc v now).2 = none
    ∧ ((reach players ops).add_round cc v now).1.history.map Prod.fst
        = natRangeFrom 0 ((reach players ops).history.length + 1)
    ∧ ((reach players ops).add_round cc v now).1.tx_log.map Tx.round
        = natRangeFrom 0 ((reach players ops).history.length + 1) := by
  have inv := stateInv_reach players ops
  have inva := stateInv_add players (reach players ops) cc v now inv
  have hlen : ((reach players ops).add_round cc v now).1.history.length
      = (reach players ops).history.length + 1 := by
    rw [add_round_eq]
    show ((reach players ops).history ++ [_]).length = _
    simp
  refine ⟨by rw [add_round_eq], ?_, ?_⟩
  · rw [inva.hist_names, hlen]
  · rw [inva.tx_rounds, inva.tx_len, hlen]

/-- C9: serializing a reachable tracker with `save_game_snapshot`'s snapshot
construction and restoring with `restore_tracker_from_snapshot` yields a
tracker with equal players, balances, history and tx_log, together with the
saved `round_num` and `card_value`: the round trip is lossless. -/
theorem snapshot_roundtrip (players : List String) (ops : List Op) (rn : ℕ) (v : ℚ)
    (hnd : players.Nodup) :
    restore_tracker_from_snapshot (save_game_snapshot (reach players ops) rn v)
      = (reach players ops, rn, v) := by
  have inv := stateInv_reach players ops
  have hhist : dfFromSplit (reach players ops).players
      ((reach players ops).history.map Prod.fst)
      ((reach players ops).players.map (fun p =>
        (reach players ops).history.map (fun c => lookupD c.2 p)))
      = (reach players ops).history := by
    rw [inv.players_eq]
    exact dfFromSplit_roundtrip players hnd (reach players ops).history inv.hist_cols
  rw [restore_tracker_from_snapshot, save_game_snapshot]
  show (({ players := (reach players ops).players, balances := (reach players ops).balances,
           history := dfFromSplit (reach players ops).players
             ((reach players ops).history.map Prod.fst)
             ((reach players ops).players.map (fun p =>
               (reach players ops).history.map (fun c => lookupD c.2 p)))
           tx_log := (reach players ops).tx_log } : CardGameTracker), rn, v)
      = (reach players ops, rn, v)
  rw [hhist]

/-- Witness for C9: round trip after one recorded round on players `A`, `B`. -/
theorem snapshot_roundtrip_witness :
    (["A", "B"].Nodup) ∧
      restore_tracker_from_snapshot (save_game_snapshot
          (reach ["A", "B"] [Op.add [("A", (0 : ℤ)), ("B", 5)] 1 "t0"]) 2 1)
        = (reach ["A", "B"] [Op.add [("A", (0 : ℤ)), ("B", 5)] 1 "t0"], 2, 1) :=
  ⟨by decide,
    snapshot_roundtrip ["A", "B"] [Op.add [("A", (0 : ℤ)), ("B", 5)] 1 "t0"] 2 1 (by decide)⟩

/-- C10: a failing `remove_round` has no effect: out-of-range round numbers
make it return `false` with the tracker untouched, and whenever it returns
`false` the tracker (balances, history, tx_log) is exactly what it was. -/
theorem remove_round_failure_no_effect (t : CardGameTracker) (k : ℕ) :
    ((k < 1 ∨ t.history.length < k) → t.remove_round k = (t, false))
    ∧ ((t.remove_round k).2 = false → (t.remove_round k).1 = t) := by
  refine ⟨remove_round_guard t k, ?_⟩
  intro hfalse
  by_cases hg : k < 1 ∨ t.history.length < k
  · rw [remove_round_guard t k hg]
  · by_cases hcont : (t.history.map Prod.fst).contains k
    · exfalso
      rw [CardGameTracker.remove_round, if_neg hg, if_neg (not_not_intro hcont)] at hfalse
      simp at hfalse
    · rw [remove_round_false_of_no_label t k hg hcont]

/-- Witness for C10: removing round 5 from a fresh one-player tracker fails
and leaves the tracker unchanged. -/
theorem remove_round_failure_no_effect_witness :
    (mkTracker ["A"]).remove_round 5 = (mkTracker ["A"], false)
    ∧ ((mkTracker ["A"]).remove_round 5).1 = mkTracker ["A"] :=
  ⟨(remove_round_failure_no_effect (mkTracker ["A"]) 5).1 (Or.inr (by decide)),
   (remove_round_failure_no_effect (mkTracker ["A"]) 5).2 (by rfl)⟩

end Taidi
